import Mathlib

/-!
Verification development for the PDF text-extraction pipeline of this
repository: the line reconstructor (formatTextContent in
src/components/PDFViewer.tsx) and the two text normalizers
(cleanAndFormatText / fixSpacedLetters in the same file, and correctText in
src/services/openai.ts).

Strings are modelled as lists of Unicode characters; the JavaScript regular
expression replacements are embedded as explicit left-to-right scanners with
the same leftmost-match, non-overlapping, replacement-not-rescanned
semantics as String.prototype.replace with the g flag.  Page coordinates are
modelled as integers, which carry all the threshold comparisons the claims
are about.
-/

namespace PdfPipeline

/-! ### Character classes (JavaScript regex semantics) -/

/-- JavaScript whitespace class: the characters matched by the regex class
backslash-s (and removed by String.prototype.trim). -/
def isWSB (c : Char) : Bool :=
  let n := c.toNat
  (n = 32) || (n = 9) || (n = 10) || (n = 11) || (n = 12) || (n = 13) ||
  (n = 160) || (n = 5760) || (8192 ≤ n && n ≤ 8202) || (n = 8232) ||
  (n = 8233) || (n = 8239) || (n = 8287) || (n = 12288) || (n = 65279)

/-- ASCII decimal digit, the regex class backslash-d. -/
def isDigitB (c : Char) : Bool := 48 ≤ c.toNat && c.toNat ≤ 57

/-- ASCII uppercase letter, the regex class A-Z. -/
def isUpperB (c : Char) : Bool := 65 ≤ c.toNat && c.toNat ≤ 90

/-- ASCII lowercase letter, the regex class a-z. -/
def isLowerB (c : Char) : Bool := 97 ≤ c.toNat && c.toNat ≤ 122

/-- ASCII letter, the regex class A-Za-z. -/
def isAlphaB (c : Char) : Bool := isUpperB c || isLowerB c

/-- Word character, the regex class backslash-w: A-Za-z0-9_. -/
def isWordB (c : Char) : Bool := isAlphaB c || isDigitB c || c = '_'

/-- ASCII-case-folding to lowercase, modelling the i flag on the
case-insensitive regexes of the source (whose patterns are all ASCII). -/
def lowCh (c : Char) : Char :=
  if isUpperB c then Char.ofNat (c.toNat + 32) else c

theorem isAlphaB_not_ws {c : Char} (h : isAlphaB c = true) : isWSB c = false := by
  simp only [isAlphaB, isUpperB, isLowerB, Bool.or_eq_true, Bool.and_eq_true,
    decide_eq_true_eq] at h
  simp only [isWSB, Bool.or_eq_false_iff, Bool.and_eq_false_iff,
    decide_eq_false_iff_not]
  omega

theorem isAlphaB_word {c : Char} (h : isAlphaB c = true) : isWordB c = true := by
  simp [isWordB, h]

theorem isAlphaB_ne_space {c : Char} (h : isAlphaB c = true) : ¬ c = ' ' := by
  intro he
  subst he
  simp [isAlphaB, isUpperB, isLowerB] at h

theorem isWSB_space : isWSB ' ' = true := by decide

theorem isWSB_of_eq_space {c : Char} (h : c = ' ') : isWSB c = true := by
  subst h; decide

/-! ### Small list helpers -/

/-- Does the string start with the given literal pattern (first argument)? -/
def startsWithLit : List Char → List Char → Bool
  | [], _ => true
  | _ :: _, [] => false
  | p :: ps, c :: cs => p = c && startsWithLit ps cs

/-- Case-insensitive (ASCII) version of startsWithLit. -/
def startsWithCI : List Char → List Char → Bool
  | [], _ => true
  | _ :: _, [] => false
  | p :: ps, c :: cs => lowCh p = lowCh c && startsWithCI ps cs

/-- Last element or a default. -/
def lastD (l : List Char) (d : Char) : Char := (l.getLast?).getD d

/-- JavaScript String.prototype.trim on the character-list model. -/
def trimCh (l : List Char) : List Char :=
  (((l.dropWhile isWSB).reverse).dropWhile isWSB).reverse

/-- Does the string contain the pattern as a contiguous subsequence? -/
def hasSeq : List Char → List Char → Bool
  | [], pat => pat.isEmpty
  | c :: cs, pat => startsWithLit pat (c :: cs) || hasSeq cs pat

theorem mem_take' {l : List Char} {n : Nat} {c : Char} (h : c ∈ l.take n) :
    c ∈ l := by
  induction l generalizing n with
  | nil => simp at h
  | cons a t ih =>
    cases n with
    | zero => simp at h
    | succ m =>
      simp only [List.take, List.mem_cons] at h
      rcases h with h | h
      · exact h ▸ List.mem_cons_self _ _
      · exact List.mem_cons_of_mem _ (ih h)

theorem mem_drop' {l : List Char} {n : Nat} {c : Char} (h : c ∈ l.drop n) :
    c ∈ l := by
  induction l generalizing n with
  | nil => simp at h
  | cons a t ih =>
    cases n with
    | zero => simpa using h
    | succ m => exact List.mem_cons_of_mem _ (ih (by simpa using h))

theorem mem_takeWhile' {p : Char → Bool} {l : List Char} {c : Char}
    (h : c ∈ l.takeWhile p) : c ∈ l := by
  induction l with
  | nil => simp at h
  | cons a t ih =>
    by_cases hp : p a = true
    · simp only [List.takeWhile, hp, List.mem_cons] at h
      rcases h with h | h
      · exact h ▸ List.mem_cons_self _ _
      · exact List.mem_cons_of_mem _ (ih h)
    · rw [Bool.not_eq_true] at hp
      simp only [List.takeWhile, hp] at h
      simp at h

theorem mem_dropWhile' {p : Char → Bool} {l : List Char} {c : Char}
    (h : c ∈ l.dropWhile p) : c ∈ l := by
  induction l with
  | nil => simp at h
  | cons a t ih =>
    by_cases hp : p a = true
    · simp only [List.dropWhile, hp] at h
      exact List.mem_cons_of_mem _ (ih h)
    · rw [Bool.not_eq_true] at hp
      simp only [List.dropWhile, hp] at h
      simpa using h

theorem mem_trimCh {l : List Char} {c : Char} (h : c ∈ trimCh l) : c ∈ l := by
  unfold trimCh at h
  rw [List.mem_reverse] at h
  have h2 := mem_dropWhile' h
  rw [List.mem_reverse] at h2
  exact mem_dropWhile' h2

/-! ### Generic global-replace driver

A matcher receives the character preceding the current position (for word
boundary and line-start tests) and the remaining text, and returns, when the
pattern matches at this very position, the replacement text, the last
character consumed by the match, and the rest of the text after the match.
rewriteF scans left to right, emitting replacements without rescanning them,
exactly like a g-flagged String.prototype.replace.  The fuel argument is an
upper bound on the number of scanning steps; applyRW passes the text length,
which suffices because every match consumes at least one character. -/

abbrev Matcher := Option Char → List Char → Option (List Char × Char × List Char)

def rewriteF (f : Matcher) : Nat → Option Char → List Char → List Char
  | 0, _, l => l
  | _ + 1, _, [] => []
  | fuel + 1, prev, c :: cs =>
    match f prev (c :: cs) with
    | some (rep, lc, rest) => rep ++ rewriteF f fuel (some lc) rest
    | none => c :: rewriteF f fuel (some c) cs

def applyRW (f : Matcher) (l : List Char) : List Char :=
  rewriteF f l.length none l

/-- A matcher that deletes a single character belonging to a class. -/
def mDelClass (p : Char → Bool) : Matcher := fun _ l =>
  match l with
  | [] => none
  | c :: cs => if p c then some ([], c, cs) else none

/-- Matcher property used for character-provenance reasoning: every
replacement character comes from the scanned text or from the fixed literal
list, and the rest is drawn from the scanned text. -/
def MP (f : Matcher) (lits : List Char) : Prop :=
  ∀ prev l rep lc rest, f prev l = some (rep, lc, rest) →
    (∀ c ∈ rep, c ∈ l ∨ c ∈ lits) ∧ (∀ c ∈ rest, c ∈ l)

theorem rewriteF_mem {f : Matcher} {lits : List Char} (hf : MP f lits) :
    ∀ (fuel : Nat) (prev : Option Char) (l : List Char) (c : Char),
      c ∈ rewriteF f fuel prev l → c ∈ l ∨ c ∈ lits := by
  intro fuel
  induction fuel with
  | zero => intro prev l c h; exact Or.inl h
  | succ n ih =>
    intro prev l c h
    cases l with
    | nil => simp [rewriteF] at h
    | cons a t =>
      rw [rewriteF] at h
      cases hm : f prev (a :: t) with
      | none =>
        rw [hm] at h
        simp only [List.mem_cons] at h
        rcases h with h | h
        · exact Or.inl (h ▸ List.mem_cons_self _ _)
        · rcases ih (some a) t c h with h2 | h2
          · exact Or.inl (List.mem_cons_of_mem _ h2)
          · exact Or.inr h2
      | some v =>
        obtain ⟨rep, lc, rest⟩ := v
        rw [hm] at h
        simp only [List.mem_append] at h
        have hp := hf prev (a :: t) rep lc rest hm
        rcases h with h | h
        · exact hp.1 c h
        · rcases ih (some lc) rest c h with h2 | h2
          · exact Or.inl (hp.2 c h2)
          · exact Or.inr h2

theorem applyRW_mem {f : Matcher} {lits : List Char} (hf : MP f lits)
    {l : List Char} {c : Char} (h : c ∈ applyRW f l) : c ∈ l ∨ c ∈ lits :=
  rewriteF_mem hf l.length none l c h

theorem mDelClass_mp (p : Char → Bool) : MP (mDelClass p) [] := by
  intro prev l rep lc rest h
  cases l with
  | nil => simp [mDelClass] at h
  | cons a t =>
    simp only [mDelClass] at h
    by_cases hp : p a = true
    · simp only [if_pos hp, Option.some.injEq, Prod.mk.injEq] at h
      obtain ⟨h1, _, h3⟩ := h
      subst h1; subst h3
      exact ⟨by simp, fun c hc => List.mem_cons_of_mem _ hc⟩
    · rw [if_neg hp] at h
      exact absurd h (by simp)

/-! ### Shared parsing helpers for the regex scanners -/

/-- Emoji and symbol-block code points stripped by both normalizers. -/
def isEmojiB (c : Char) : Bool :=
  let n := c.toNat
  (0x1F600 ≤ n && n ≤ 0x1F64F) || (0x1F300 ≤ n && n ≤ 0x1F5FF) ||
  (0x1F680 ≤ n && n ≤ 0x1F6FF) || (0x1F700 ≤ n && n ≤ 0x1F77F) ||
  (0x1F780 ≤ n && n ≤ 0x1F7FF) || (0x1F800 ≤ n && n ≤ 0x1F8FF) ||
  (0x1F900 ≤ n && n ≤ 0x1F9FF) || (0x1FA00 ≤ n && n ≤ 0x1FA6F) ||
  (0x1FA70 ≤ n && n ≤ 0x1FAFF) || (0x2600 ≤ n && n ≤ 0x26FF) ||
  (0x2700 ≤ n && n ≤ 0x27BF)

/-- Hyphen, en dash or em dash, the separator class of the date-range rules. -/
def isDashB (c : Char) : Bool := c = '-' || c = '–' || c = '—'

/-- The word-boundary test before a position: there is a boundary when the
position is at the start of the text or the preceding character is not a
word character (the following character of our uses is always a letter). -/
def boundaryBefore : Option Char → Bool
  | none => true
  | some c => !isWordB c

/-- Parse exactly four ASCII digits; the capture is returned as a slice of
the input. -/
def parse4d (l : List Char) : Option (List Char × List Char) :=
  match l with
  | a :: b :: c :: d :: _ =>
    if isDigitB a && isDigitB b && isDigitB c && isDigitB d then
      some (l.take 4, l.drop 4)
    else none
  | _ => none

/-- Parse one or two digits, a slash, then four digits (greedy on the first
group, as the regex quantifier is); the capture is a slice of the input. -/
def parseMmY (l : List Char) : Option (List Char × List Char) :=
  match l with
  | a :: b :: rest =>
    if isDigitB a && b = '/' then
      match parse4d rest with
      | some _ => some (l.take 6, l.drop 6)
      | none => none
    else if isDigitB a && isDigitB b then
      match rest with
      | c :: rest2 =>
        if c = '/' then
          match parse4d rest2 with
          | some _ => some (l.take 7, l.drop 7)
          | none => none
        else none
      | [] => none
    else none
  | _ => none

/-- Alternation used by the year-range rule: four digits, or the words
Present / Current case-insensitively, in the order the source lists them. -/
def parseYearWord (l : List Char) : Option (List Char × List Char) :=
  match parse4d l with
  | some r => some r
  | none =>
    if startsWithCI "present".data l then some (l.take 7, l.drop 7)
    else if startsWithCI "current".data l then some (l.take 7, l.drop 7)
    else none

/-- Alternation used by the month-range rule: MM/YYYY, or Present / Current
case-insensitively. -/
def parseMonthWord (l : List Char) : Option (List Char × List Char) :=
  match parseMmY l with
  | some r => some r
  | none =>
    if startsWithCI "present".data l then some (l.take 7, l.drop 7)
    else if startsWithCI "current".data l then some (l.take 7, l.drop 7)
    else none

/-- The tail of the date-range regexes: any whitespace then one non-newline
character, with the backtracking the regex engine performs when the greedy
whitespace run reaches the end of the text.  Returns the captured character
and the rest of the text after it. -/
def wsThenNonNl (l : List Char) : Option (Char × List Char) :=
  match l.drop (l.takeWhile isWSB).length with
  | c :: cs => some (c, cs)
  | [] =>
    match (l.takeWhile isWSB).reverse.drop
        ((l.takeWhile isWSB).reverse.takeWhile (fun c => c = '\n')).length with
    | c :: _ =>
      some (c,
        ((l.takeWhile isWSB).reverse.takeWhile (fun c => c = '\n')).reverse)
    | [] => none

/-! ### Matchers for correctText (src/services/openai.ts) -/

/-- Page-break marker: three hyphens, optional whitespace, the word Page,
optional whitespace, the word Break, optional whitespace, three hyphens,
case-insensitively; deleted. -/
def mPageBreak : Matcher := fun _ l =>
  if startsWithLit "---".data l then
    let r1 := (l.drop 3).dropWhile isWSB
    if startsWithCI "page".data r1 then
      let r2 := (r1.drop 4).dropWhile isWSB
      if startsWithCI "break".data r2 then
        let r3 := (r2.drop 5).dropWhile isWSB
        if startsWithLit "---".data r3 then some ([], '-', r3.drop 3)
        else none
      else none
    else none
  else none

/-- First bullet class of correctText (line 21 of openai.ts). -/
def isBullet1 (c : Char) : Bool :=
  let n := c.toNat
  (n = 0x2022) || (n = 0x25cf) || (n = 0x25a0) || (n = 0x25a1) ||
  (n = 0x25aa) || (n = 0x25ab) || (n = 0x2043) || (n = 0x2219) || (n = 0x25e6) ||
  (n = 0x25cb)

/-- Second bullet class (line 22). -/
def isBullet2 (c : Char) : Bool :=
  let n := c.toNat
  (n = 0x25b8) || (n = 0x25ba) || (n = 0x25bc) || (n = 0x25be) ||
  (n = 0x25c2) || (n = 0x25c4) || (n = 0x25c6) || (n = 0x25c8) ||
  (n = 0x25cb) || (n = 0x25ce) || (n = 0x25cf)

/-- Third bullet class (line 23): the half-shaded circle block. -/
def isBullet3 (c : Char) : Bool := 0x25d0 ≤ c.toNat && c.toNat ≤ 0x25df

/-- Fourth bullet class (line 24). -/
def isBullet4 (c : Char) : Bool := 0x25e0 ≤ c.toNat && c.toNat ≤ 0x25ef

/-- Fifth bullet class (line 25): stars, phone and pointing hands. -/
def isBullet5 (c : Char) : Bool :=
  let n := c.toNat
  (n = 0x2605) || (n = 0x2606) || (n = 0x260e) || (n = 0x2616) ||
  (n = 0x2617) || (n = 0x2619) || (0x261a ≤ n && n ≤ 0x261f)

/-- Sixth bullet class (line 26): card suits and musical notes. -/
def isBullet6 (c : Char) : Bool := 0x2660 ≤ c.toNat && c.toNat ≤ 0x266f

/-- Hyphenated line break: a word run, a hyphen, whitespace containing at
least one newline, then a word run; replaced by the two word runs joined. -/
def mHyphenNl : Matcher := fun _ l =>
  let w1 := l.takeWhile isWordB
  if w1.isEmpty then none
  else
    match l.drop w1.length with
    | '-' :: r2 =>
      let ws := r2.takeWhile isWSB
      if ws.any (fun c => c = '\n') then
        let r3 := r2.drop ws.length
        let w2 := r3.takeWhile isWordB
        if w2.isEmpty then none
        else some (w1 ++ w2, lastD w2 '-', r3.drop w2.length)
      else none
    | _ => none

/-- One unit of the letter-spacing chain: a whitespace run then a letter. -/
def parseWsLetter (l : List Char) : Option (Char × List Char) :=
  let w := l.takeWhile isWSB
  if w.isEmpty then none
  else
    match l.drop w.length with
    | c :: cs => if isAlphaB c then some (c, cs) else none
    | [] => none

/-- After the first letter of an n-letter spaced run, consume the remaining
m units (whitespace run + letter) and require a word boundary after the last
letter.  Returns the collected letters and the rest. -/
def chainAfter : Nat → List Char → Option (List Char × List Char)
  | 0, l =>
    match l with
    | [] => some ([], [])
    | c :: cs => if isWordB c then none else some ([], c :: cs)
  | m + 1, l =>
    match parseWsLetter l with
    | some (c, rest) =>
      match chainAfter m rest with
      | some (ls, r) => some (c :: ls, r)
      | none => none
    | none => none

/-- The n-letter letter-spacing collapse pattern of correctText: a word
boundary, then n single letters separated by whitespace runs, then a word
boundary; replaced by the letters joined. -/
def mCascade (n : Nat) : Matcher := fun prev l =>
  if boundaryBefore prev then
    match l with
    | c :: cs =>
      if isAlphaB c then
        match chainAfter (n - 1) cs with
        | some (ls, rest) => some (c :: ls, lastD (c :: ls) c, rest)
        | none => none
      else none
    | [] => none
  else none

/-- A whitespace run, replaced by a single space. -/
def mWsRun : Matcher := fun _ l =>
  match l with
  | c :: cs =>
    if isWSB c then
      let w := cs.takeWhile isWSB
      some ([' '], lastD (c :: w) c, cs.drop w.length)
    else none
  | [] => none

/-- Sentence rule of correctText: a period, a whitespace run, then a
captured uppercase letter; replaced by the period, a paragraph break and
the letter. -/
def mSentenceDot : Matcher := fun _ l =>
  match l with
  | '.' :: cs =>
    let w := cs.takeWhile isWSB
    if w.isEmpty then none
    else
      match cs.drop w.length with
      | c2 :: rest =>
        if isUpperB c2 then some (['.', '\n', '\n', c2], c2, rest) else none
      | [] => none
  | _ => none

/-- Year date-range rule (line 48): four digits, a dash with optional
surrounding whitespace, four digits or Present/Current, optional whitespace
and a captured non-newline character; rewritten with a plain hyphen and a
paragraph break before the captured character. -/
def mDate48 : Matcher := fun _ l =>
  match parse4d l with
  | none => none
  | some (y1, r1) =>
    let w1 := r1.takeWhile isWSB
    match r1.drop w1.length with
    | d :: r3 =>
      if isDashB d then
        let w2 := r3.takeWhile isWSB
        match parseYearWord (r3.drop w2.length) with
        | some (y2, r5) =>
          match wsThenNonNl r5 with
          | some (c3, r6) =>
            some (y1 ++ '-' :: (y2 ++ '\n' :: '\n' :: [c3]), c3, r6)
          | none => none
        | none => none
      else none
    | [] => none

/-- Month date-range rule (line 49): MM/YYYY, a dash with optional
surrounding whitespace, MM/YYYY or Present/Current, optional whitespace and
a captured non-newline character; rewritten with a spaced hyphen and a
paragraph break before the captured character. -/
def mDate49 : Matcher := fun _ l =>
  match parseMmY l with
  | none => none
  | some (g1, r1) =>
    let w1 := r1.takeWhile isWSB
    match r1.drop w1.length with
    | d :: r3 =>
      if isDashB d then
        let w2 := r3.takeWhile isWSB
        match parseMonthWord (r3.drop w2.length) with
        | some (g2, r5) =>
          match wsThenNonNl r5 with
          | some (c3, r6) =>
            some (g1 ++ ' ' :: '-' :: ' ' :: (g2 ++ '\n' :: '\n' :: [c3]), c3, r6)
          | none => none
        | none => none
      else none
    | [] => none

/-- The section-header vocabulary of correctText, in source order. -/
def secHeaders61 : List (List Char) :=
  ["Experience".data, "Education".data, "Skills".data, "Languages".data,
   "Projects".data, "Certifications".data, "References".data,
   "Responsibilities".data, "Achievements".data, "Key responsibilities".data,
   "Work Experience".data, "Professional Experience".data,
   "Technical Skills".data, "Soft Skills".data, "Publications".data,
   "Awards".data, "Volunteer Work".data, "Interests".data, "Hobbies".data,
   "Contact Information".data, "Summary".data, "Objective".data,
   "Personal Statement".data, "Professional Summary".data,
   "Career Highlights".data]

/-- Try each alternative in order, case-insensitively; on success return the
actually matched characters and the rest. -/
def findCI : List (List Char) → List Char → Option (List Char × List Char)
  | [], _ => none
  | h :: hs, l =>
    if startsWithCI h l then some (l.take h.length, l.drop h.length)
    else findCI hs l

/-- The tail of the section-header rule after the header, for a text
beginning with an optional colon: with-colon is preferred by the greedy
optional quantifier, and on failure the engine falls back to reading the
colon as the captured character. -/
def colonBranch (m : List Char) : Option (Char × List Char) :=
  match m with
  | ':' :: m2 =>
    match wsThenNonNl m2 with
    | some r => some r
    | none => some (':', m2)
  | _ => wsThenNonNl m

/-- Backtracking search over how much leading whitespace the first
whitespace quantifier of the section-header tail consumes, largest first. -/
def tailColonGo : Nat → List Char → Option (Char × List Char)
  | 0, m => colonBranch m
  | k + 1, m =>
    match colonBranch (m.drop (k + 1)) with
    | some r => some r
    | none => tailColonGo k m

/-- The full tail of the section-header rule: optional whitespace, optional
colon, optional whitespace, then a captured non-newline character. -/
def tailColon (m : List Char) : Option (Char × List Char) :=
  tailColonGo (m.takeWhile isWSB).length m

/-- Section-header rule of correctText (lines 61-62): a header from the
vocabulary, optional whitespace, an optional colon, optional whitespace and
a captured non-newline character; rewritten as the header, a colon, a
paragraph break and the captured character. -/
def mSection61 : Matcher := fun _ l =>
  match findCI secHeaders61 l with
  | some (h, r) =>
    match tailColon r with
    | some (c2, rest) => some (h ++ ':' :: '\n' :: '\n' :: [c2], c2, rest)
    | none => none
  | none => none

/-- Final cleanup of correctText (line 65): a newline, whitespace, a
newline, whitespace, then one or more newlines — i.e. a whitespace region
that starts with a newline and contains at least three newlines, consumed
through its last newline — replaced by a paragraph break. -/
def mNlRegion : Matcher := fun _ l =>
  match l with
  | '\n' :: _ =>
    let w := l.takeWhile isWSB
    if 3 ≤ (w.filter (fun c => c = '\n')).length then
      let tailNoNl := (w.reverse.takeWhile (fun c => !(c = '\n'))).length
      let len := w.length - tailNoNl
      some (['\n', '\n'], '\n', l.drop len)
    else none
  | _ => none

/-- The letter-spacing repair of correctText (lines 35-39): the five
fixed-width collapse patterns applied longest first. -/
def letterStage (l : List Char) : List Char :=
  applyRW (mCascade 2) (applyRW (mCascade 3) (applyRW (mCascade 4)
    (applyRW (mCascade 5) (applyRW (mCascade 6) l))))

/-- The whitespace-normalization step of correctText (line 42): every
whitespace run becomes a single space, then the result is trimmed. -/
def wsStageOpenai (l : List Char) : List Char := trimCh (applyRW mWsRun l)

/-- The stages of correctText, in source order. -/
def correctSteps : List (List Char → List Char) :=
  [applyRW (mDelClass isEmojiB),
   applyRW mPageBreak,
   applyRW (mDelClass isBullet1),
   applyRW (mDelClass isBullet2),
   applyRW (mDelClass isBullet3),
   applyRW (mDelClass isBullet4),
   applyRW (mDelClass isBullet5),
   applyRW (mDelClass isBullet6),
   applyRW (mDelClass (fun c => c = '|')),
   applyRW mHyphenNl,
   letterStage,
   wsStageOpenai,
   applyRW mSentenceDot,
   applyRW mDate48,
   applyRW mDate49,
   applyRW mSection61,
   applyRW mNlRegion]

/-- The full correctText normalizer of src/services/openai.ts: the falsy
guard, then the rewrite stages applied in source order. -/
def correctTextL (l : List Char) : List Char :=
  if l.isEmpty then [] else correctSteps.foldl (fun t g => g t) l

/-- String-level wrapper for correctText. -/
def correctText (s : String) : String := String.mk (correctTextL s.data)

/-! ### Matchers for cleanAndFormatText (src/components/PDFViewer.tsx) -/

/-- Bullet class of cleanAndFormatText (line 155), which also contains the
plain hyphen; the matched character and any following whitespace run are
deleted together. -/
def isBulletV (c : Char) : Bool :=
  let n := c.toNat
  (n = 0x2022) || (n = 0x25cf) || (n = 0x25a0) || (n = 0x25c6) ||
  (n = 0x25cb) || (n = 0x25e6) || (c = '-')

/-- Bullet-and-trailing-whitespace deletion of cleanAndFormatText. -/
def mBulletTrail : Matcher := fun _ l =>
  match l with
  | c :: cs =>
    if isBulletV c then
      let w := cs.takeWhile isWSB
      some ([], lastD (c :: w) c, cs.drop w.length)
    else none
  | [] => none

/-- A run of spaces and tabs, replaced by a single space (line 162). -/
def mSpTab : Matcher := fun _ l =>
  match l with
  | c :: cs =>
    if c = ' ' || c = '\t' then
      let w := cs.takeWhile (fun d => d = ' ' || d = '\t')
      some ([' '], lastD (c :: w) c, cs.drop w.length)
    else none
  | [] => none

/-- A newline followed by a whitespace run, replaced by a single newline
(line 163). -/
def mNlWs : Matcher := fun _ l =>
  match l with
  | '\n' :: cs =>
    let w := cs.takeWhile isWSB
    if w.isEmpty then none
    else some (['\n'], lastD w '\n', cs.drop w.length)
  | _ => none

/-- A whitespace run followed by a newline, replaced by a single newline
(line 164): the match ends at the last newline of the whitespace run, which
must not be the run's first character. -/
def mWsNl : Matcher := fun _ l =>
  let w := l.takeWhile isWSB
  let tailNoNl := (w.reverse.takeWhile (fun c => !(c = '\n'))).length
  if tailNoNl < w.length then
    let q := w.length - 1 - tailNoNl
    if 1 ≤ q then some (['\n'], '\n', l.drop (q + 1)) else none
  else none

/-- Three or more consecutive newlines, replaced by exactly two. -/
def mNl3 : Matcher := fun _ l =>
  match l with
  | '\n' :: _ =>
    let run := l.takeWhile (fun c => c = '\n')
    if 3 ≤ run.length then some (['\n', '\n'], '\n', l.drop run.length)
    else none
  | _ => none

/-- Hyphenated word across a line break (line 168): a letter, a hyphen, an
optional space, a newline, a letter; the letters are joined. -/
def mHyphenSpNl : Matcher := fun _ l =>
  match l with
  | c1 :: '-' :: rest =>
    if isAlphaB c1 then
      match rest with
      | '\n' :: c2 :: r2 =>
        if isAlphaB c2 then some ([c1, c2], c2, r2) else none
      | ' ' :: '\n' :: c2 :: r2 =>
        if isAlphaB c2 then some ([c1, c2], c2, r2) else none
      | _ => none
    else none
  | _ => none

/-- A letter, a newline, a letter (line 169): joined with a space. -/
def mJoinNl : Matcher := fun _ l =>
  match l with
  | c1 :: '\n' :: c2 :: r2 =>
    if isAlphaB c1 && isAlphaB c2 then some ([c1, ' ', c2], c2, r2) else none
  | _ => none

/-- Date-range rule of cleanAndFormatText (line 173): MM/YYYY or YYYY, a
dash with optional surrounding whitespace, MM/YYYY or YYYY or Present; the
match is kept verbatim, wrapped in a leading paragraph break and a trailing
newline. -/
def mDate173 : Matcher := fun _ l =>
  let g1 :=
    match parseMmY l with
    | some r => some r
    | none => parse4d l
  match g1 with
  | none => none
  | some (p1, r1) =>
    let w1 := r1.takeWhile isWSB
    match r1.drop w1.length with
    | d :: r3 =>
      if isDashB d then
        let w2 := r3.takeWhile isWSB
        let g2 :=
          match parseMmY (r3.drop w2.length) with
          | some r => some r
          | none =>
            match parse4d (r3.drop w2.length) with
            | some r => some r
            | none =>
              if startsWithCI "present".data (r3.drop w2.length) then
                some ((r3.drop w2.length).take 7, (r3.drop w2.length).drop 7)
              else none
        match g2 with
        | some (p2, r5) =>
          let whole := p1 ++ w1 ++ d :: (w2 ++ p2)
          some ('\n' :: '\n' :: (whole ++ ['\n']), lastD p2 d, r5)
        | none => none
      else none
    | [] => none

/-- The job-title vocabulary of cleanAndFormatText (line 176), source
order. -/
def titles176 : List (List Char) :=
  ["Project Manager".data, "Head Of".data, "Director".data, "Manager".data,
   "Engineer".data, "Developer".data, "Designer".data, "Consultant".data,
   "Analyst".data, "Specialist".data]

/-- Is this position at the start of the text or just after a newline
(the multiline caret)? -/
def lineStart : Option Char → Bool
  | none => true
  | some c => c = '\n'

/-- Greedy search for the largest newline-free prefix of length at most 50
followed by a job title; returns the prefix, the title as written, and the
rest. -/
def tryTitleAt : Nat → List Char → Option (List Char × List Char × List Char)
  | 0, l => (findCI titles176 l).map (fun p => ([], p.1, p.2))
  | k + 1, l =>
    match findCI titles176 (l.drop (k + 1)) with
    | some (t, r) => some (l.take (k + 1), t, r)
    | none => tryTitleAt k l

/-- Job-title rule (line 176): at a line start, up to fifty non-newline
characters then a title from the vocabulary; a paragraph break is inserted
before the match. -/
def mTitles : Matcher := fun prev l =>
  if lineStart prev then
    let kmax := min 50 (l.takeWhile (fun c => !(c = '\n'))).length
    match tryTitleAt kmax l with
    | some (p, t, r) =>
      some ('\n' :: '\n' :: (p ++ t), lastD (p ++ t) '\n', r)
    | none => none
  else none

/-- Section-header vocabulary of cleanAndFormatText (line 179). -/
def secHeaders180 : List (List Char) :=
  ["Experience".data, "Education".data, "Skills".data, "Languages".data,
   "Projects".data, "Certifications".data, "References".data,
   "Responsibilities".data, "Achievements".data]

/-- The section regex of cleanAndFormatText (line 180) is built from a
template literal in which the escapes backslash-s and backslash-b denote a
literal letter s and a backspace character, so the compiled pattern is:
line start or a newline, any number of the letter s (case-insensitively), a
backspace character, a header, a backspace character, then the rest of the
line; the whole match is wrapped in a paragraph break and a trailing
newline.  On text without backspace characters it never fires. -/
def parse180After (l : List Char) : Option (List Char × List Char) :=
  let sRun := l.takeWhile (fun c => lowCh c = 's')
  match l.drop sRun.length with
  | c :: r2 =>
    if c.toNat = 8 then
      match findCI secHeaders180 r2 with
      | some (h, r3) =>
        match r3 with
        | c2 :: r4 =>
          if c2.toNat = 8 then
            let lineRest := r4.takeWhile (fun d => !(d = '\n'))
            some (sRun ++ c :: (h ++ c2 :: lineRest), r4.drop lineRest.length)
          else none
        | [] => none
      | none => none
    else none
  | [] => none

def mSection180 : Matcher := fun prev l =>
  if lineStart prev then
    match parse180After l with
    | some (m, r) => some ('\n' :: '\n' :: (m ++ ['\n']), lastD m '\n', r)
    | none => none
  else
    match l with
    | '\n' :: cs =>
      match parse180After cs with
      | some (m, r) =>
        some ('\n' :: '\n' :: ('\n' :: m ++ ['\n']), lastD m '\n', r)
      | none => none
    | _ => none

/-- Sentence rule with lookahead (lines 136 and 184): sentence punctuation
and a whitespace run, followed — without consuming it — by an uppercase
letter; replaced by the punctuation and a paragraph break. -/
def mSentencePunct : Matcher := fun _ l =>
  match l with
  | p :: cs =>
    if p = '.' || p = '!' || p = '?' then
      let w := cs.takeWhile isWSB
      if w.isEmpty then none
      else
        match cs.drop w.length with
        | c2 :: _ =>
          if isUpperB c2 then
            some ([p, '\n', '\n'], lastD w p, cs.drop w.length)
          else none
        | [] => none
    else none
  | [] => none

/-- Literal hyphen-newline deletion of formatTextContent (line 134). -/
def mHyphenNlLit : Matcher := fun _ l =>
  match l with
  | '-' :: '\n' :: rest => some ([], '\n', rest)
  | _ => none

/-! ### fixSpacedLetters (src/components/PDFViewer.tsx, lines 193-217) -/

/-- Word boundary after a position: end of text or a non-word character. -/
def boundaryAfter : List Char → Bool
  | [] => true
  | c :: _ => !isWordB c

/-- Greedy parse of the spaced-letter pattern body: letter-space units, as
many as possible, then a final letter with a word boundary after it.
Returns the matched characters and the rest. -/
def chainRest : List Char → Option (List Char × List Char)
  | [] => none
  | a :: rest =>
    if isAlphaB a then
      match rest with
      | ' ' :: rest2 =>
        match chainRest rest2 with
        | some (m, r) => some (a :: ' ' :: m, r)
        | none => if boundaryAfter rest then some ([a], rest) else none
      | _ => if boundaryAfter rest then some ([a], rest) else none
    else none

/-- The spaced-letters regex of fixSpacedLetters: a word boundary, one or
more letter-space units, a final letter, a word boundary.  The match (at
least two letters) is returned unchanged; replacement is decided later by
the caller. -/
def mSpacedRun : Matcher := fun prev l =>
  if boundaryBefore prev then
    match chainRest l with
    | some (m, r) => if 3 ≤ m.length then some (m, lastD m ' ', r) else none
    | none => none
  else none

/-- All matches of the spaced-letters regex, in scanning order, over the
original text (the matchAll collection loop). -/
def collectMatches : Nat → Option Char → List Char → List (List Char)
  | 0, _, _ => []
  | _ + 1, _, [] => []
  | fuel + 1, prev, c :: cs =>
    match mSpacedRun prev (c :: cs) with
    | some (m, lc, rest) => m :: collectMatches fuel (some lc) rest
    | none => collectMatches fuel (some c) cs

/-- Replace the first occurrence of a (non-empty) pattern, the
String.prototype.replace behaviour on a plain-string pattern. -/
def replaceFirst : List Char → List Char → List Char → List Char
  | [], _, _ => []
  | c :: cs, pat, rep =>
    if startsWithLit pat (c :: cs) then rep ++ (c :: cs).drop pat.length
    else c :: replaceFirst cs pat rep

/-- fixSpacedLetters: collect the spaced-letter matches, then for each one
whose space-stripped join is longer than two characters, replace its first
occurrence in the working text by the join. -/
def fixSpacedLettersL (l : List Char) : List Char :=
  let ms := collectMatches l.length none l
  ms.foldl
    (fun acc m =>
      let joined := m.filter (fun c => !(c = ' '))
      if 2 < joined.length then replaceFirst acc m joined else acc)
    l

/-- The whitespace-normalization step of cleanAndFormatText (lines
161-165): space/tab runs to a single space, a newline plus trailing
whitespace to a single newline, whitespace before a newline removed, and
three or more newlines collapsed to two. -/
def wsStageViewer (l : List Char) : List Char :=
  applyRW mNl3 (applyRW mWsNl (applyRW mNlWs (applyRW mSpTab l)))

/-- The full cleanAndFormatText of src/components/PDFViewer.tsx, stage by
stage in source order. -/
def cleanAndFormatTextL (l : List Char) : List Char :=
  if l.isEmpty then []
  else
    let t := applyRW (mDelClass isEmojiB) l
    let t := applyRW mPageBreak t
    let t := applyRW mBulletTrail t
    let t := applyRW (mDelClass (fun c => c = '|')) t
    let t := fixSpacedLettersL t
    let t := wsStageViewer t
    let t := applyRW mHyphenSpNl t
    let t := applyRW mJoinNl t
    let t := applyRW mDate173 t
    let t := applyRW mTitles t
    let t := applyRW mSection180 t
    let t := applyRW mSentencePunct t
    let t := applyRW mNl3 t
    trimCh t

/-- String-level wrapper for cleanAndFormatText. -/
def cleanAndFormatText (s : String) : String :=
  String.mk (cleanAndFormatTextL s.data)

/-! ### The line reconstructor (formatTextContent, lines 97-142) -/

/-- A positioned text fragment as mapped from the page engine's items:
its text and its x and y baseline coordinates. -/
structure Frag where
  str : List Char
  x : Int
  y : Int
deriving DecidableEq, Repr

/-- A line under construction: the representative baseline (the y of the
first fragment assigned to the line) and the pushed parts. -/
structure LineR where
  y : Int
  text : List (List Char)
deriving DecidableEq, Repr

/-- The order imposed by the sort comparator (b.y - a.y) || (a.x - b.x):
descending y, and ascending x for equal y. -/
def fragOrd (a b : Frag) : Prop := b.y < a.y ∨ (b.y = a.y ∧ a.x ≤ b.x)

instance : DecidableRel fragOrd := fun a b =>
  inferInstanceAs (Decidable (b.y < a.y ∨ (b.y = a.y ∧ a.x ≤ b.x)))

instance : IsTotal Frag fragOrd :=
  ⟨fun a b => by
    unfold fragOrd
    rcases lt_trichotomy a.y b.y with h | h | h
    · exact Or.inr (Or.inl h)
    · rcases le_total a.x b.x with hx | hx
      · exact Or.inl (Or.inr ⟨h.symm, hx⟩)
      · exact Or.inr (Or.inr ⟨h, hx⟩)
    · exact Or.inl (Or.inl h)⟩

instance : IsTrans Frag fragOrd :=
  ⟨fun a b c hab hbc => by
    unfold fragOrd at *
    rcases hab with h1 | ⟨h1, h1x⟩
    · rcases hbc with h2 | ⟨h2, _⟩
      · exact Or.inl (lt_trans h2 h1)
      · exact Or.inl (h2 ▸ h1)
    · rcases hbc with h2 | ⟨h2, h2x⟩
      · exact Or.inl (h1 ▸ h2)
      · exact Or.inr ⟨h2.trans h1, le_trans h1x h2x⟩⟩

/-- The sort step of formatTextContent, modelling the stable Array sort
with the comparator of line 103. -/
def sortFrags (fs : List Frag) : List Frag := List.insertionSort fragOrd fs

/-- Does the previous part end in a space character (the endsWith check of
line 114)? -/
def endsWithSp (l : List Char) : Bool :=
  match l.getLast? with
  | some c => c = ' '
  | none => false

/-- Does the new text start with a space character? -/
def startsWithSp (l : List Char) : Bool :=
  match l.head? with
  | some c => c = ' '
  | none => false

/-- The needsSpace condition of line 114: the previous part is non-empty
(truthiness), does not end with a space, and the new text does not start
with a space. -/
def needsSpace (prev s : List Char) : Bool :=
  !prev.isEmpty && !endsWithSp prev && !startsWithSp s

/-- The grouping sweep of lines 108-117, carried out with the current
line's representative y and parts as explicit state. -/
def buildGo (curY : Int) (parts : List (List Char)) : List Frag → List LineR
  | [] => [⟨curY, parts⟩]
  | it :: rest =>
    if 4 < |curY - it.y| then ⟨curY, parts⟩ :: buildGo it.y [it.str] rest
    else
      buildGo curY
        (parts ++
          [(if needsSpace ((parts.getLast?).getD []) it.str then ' ' :: it.str
            else it.str)])
        rest

/-- Group the (sorted) fragments into lines. -/
def buildLines : List Frag → List LineR
  | [] => []
  | it :: rest => buildGo it.y [it.str] rest

/-- The joining loop of lines 119-131: each line's parts are concatenated
and trimmed, and consecutive lines are separated by a paragraph break when
their y gap exceeds 12, otherwise by a single newline. -/
def joinGo (acc : List Char) : List LineR → List Char
  | [] => acc
  | l :: rest =>
    let acc2 := acc ++ trimCh l.text.flatten
    match rest with
    | [] => acc2
    | nxt :: _ =>
      joinGo (acc2 ++ (if 12 < |l.y - nxt.y| then ['\n', '\n'] else ['\n']))
        rest

def joinLines (ls : List LineR) : List Char := joinGo [] ls

/-- The reconstruction stage of formatTextContent up to and including the
joining loop (lines 97-131), before the regex post-passes. -/
def reconstructRaw (fs : List Frag) : List Char :=
  joinLines (buildLines (sortFrags fs))

/-- The full formatTextContent: sort, group, join, the three cleanup
replacements of lines 134-136, cleanAndFormatText, and the final trim. -/
def formatTextContentL (fs : List Frag) : List Char :=
  let r := reconstructRaw fs
  let r := applyRW mHyphenNlLit r
  let r := applyRW mNl3 r
  let r := applyRW mSentencePunct r
  let r := cleanAndFormatTextL r
  trimCh r

/-- String-level wrapper for formatTextContent. -/
def formatTextContent (fs : List Frag) : String :=
  String.mk (formatTextContentL fs)

/-! ### Claim-side description of the line grouping (for claim C1)

Transcribed from the wording of claim C1, to be compared with the grouping
the source performs: sweeping the sorted y values, a fragment opens a new
line exactly when the absolute difference between its y and the current
line's representative y exceeds 4, and the representative y is the y of the
first fragment of the line and never changes.  Only the shape (line
representative y and fragment count) is described. -/

def specGroupGo (repY : Int) (cnt : Nat) : List Int → List (Int × Nat)
  | [] => [(repY, cnt)]
  | y :: rest =>
    if 4 < |y - repY| then (repY, cnt) :: specGroupGo y 1 rest
    else specGroupGo repY (cnt + 1) rest

def specLineGroupingC1 : List Int → List (Int × Nat)
  | [] => []
  | y :: rest => specGroupGo y 1 rest

theorem buildGo_spec :
    ∀ (rest : List Frag) (curY : Int) (parts : List (List Char)),
      (buildGo curY parts rest).map (fun l => (l.y, l.text.length))
        = specGroupGo curY parts.length (rest.map Frag.y) := by
  intro rest
  induction rest with
  | nil => intro curY parts; simp [buildGo, specGroupGo]
  | cons it rest ih =>
    intro curY parts
    rw [List.map_cons]
    rw [buildGo, specGroupGo]
    rw [abs_sub_comm it.y curY]
    by_cases hgt : 4 < |curY - it.y|
    · rw [if_pos hgt, if_pos hgt]
      rw [List.map_cons]
      rw [ih it.y [it.str]]
      rfl
    · rw [if_neg hgt, if_neg hgt]
      rw [ih]
      congr 1
      simp

/-- C1: formatTextContent first sorts the fragments by descending y and,
for equal y, ascending x (the sorted list is a permutation of the input and
is sorted for that order), and the sweep assigns a fragment to a new line
exactly when the absolute difference between its y and the current line's
representative y — the y of the line's first fragment, never updated —
exceeds 4: the lines produced by the source sweep have exactly the shape
described by the claim-side grouping of the sorted y values. -/
theorem C1_sort_and_grouping (fs : List Frag) :
    (sortFrags fs).Perm fs
  ∧ List.Sorted fragOrd (sortFrags fs)
  ∧ (buildLines (sortFrags fs)).map (fun l => (l.y, l.text.length))
      = specLineGroupingC1 ((sortFrags fs).map Frag.y) := by
  refine ⟨List.perm_insertionSort _ _, List.sorted_insertionSort _ _, ?_⟩
  cases h : sortFrags fs with
  | nil => simp [buildLines, specLineGroupingC1]
  | cons a t =>
    rw [List.map_cons]
    rw [buildLines, specLineGroupingC1]
    have := buildGo_spec t a.y [a.str]
    simpa using this

theorem joinGo_append (ls : List LineR) :
    ∀ acc : List Char, joinGo acc ls = acc ++ joinGo [] ls := by
  induction ls with
  | nil => intro acc; simp [joinGo]
  | cons l rest ih =>
    intro acc
    cases rest with
    | nil => simp [joinGo]
    | cons nxt rest2 =>
      rw [joinGo, joinGo]
      rw [ih (acc ++ trimCh l.text.flatten ++ _)]
      rw [ih (([] : List Char) ++ trimCh l.text.flatten ++ _)]
      simp

/-- C2: in the joining loop of formatTextContent, consecutive reconstructed
lines are separated by a paragraph break exactly when the absolute gap of
their representative y values exceeds 12, and by a single newline
otherwise; in particular two lines at y 100 and y 80 are joined with a
paragraph break and two lines at y 100 and y 95 with a single newline. -/
theorem C2_line_separators :
    (∀ (a b : LineR) (rest : List LineR),
        joinLines (a :: b :: rest)
          = trimCh a.text.flatten
              ++ (if 12 < |a.y - b.y| then ['\n', '\n'] else ['\n'])
              ++ joinLines (b :: rest))
  ∧ reconstructRaw [⟨"Hello".data, 0, 100⟩, ⟨"World".data, 0, 80⟩]
      = "Hello\n\nWorld".data
  ∧ reconstructRaw [⟨"Hello".data, 0, 100⟩, ⟨"World".data, 0, 95⟩]
      = "Hello\nWorld".data := by
  refine ⟨?_, by decide, by decide⟩
  intro a b rest
  show joinGo [] (a :: b :: rest) = _
  rw [joinGo]
  rw [joinGo_append (b :: rest)]
  simp [joinLines]

/-! ### Claim C3: the inter-fragment space condition -/

theorem endsWithSp_eq_false (p : List Char) :
    endsWithSp p = false ↔ p.getLast? ≠ some ' ' := by
  unfold endsWithSp
  cases hl : p.getLast? with
  | none => simp
  | some c => simp

theorem startsWithSp_eq_false (s : List Char) :
    startsWithSp s = false ↔ s.head? ≠ some ' ' := by
  unfold startsWithSp
  cases hh : s.head? with
  | none => simp
  | some c => simp

theorem isEmpty_eq_false_iff (p : List Char) : p.isEmpty = false ↔ p ≠ [] := by
  cases p <;> simp

theorem needsSpace_iff (p s : List Char) :
    needsSpace p s = true
      ↔ (p ≠ [] ∧ p.getLast? ≠ some ' ' ∧ s.head? ≠ some ' ') := by
  unfold needsSpace
  rw [Bool.and_eq_true, Bool.and_eq_true, Bool.not_eq_true', Bool.not_eq_true',
    Bool.not_eq_true']
  rw [isEmpty_eq_false_iff, endsWithSp_eq_false, startsWithSp_eq_false]
  tauto

/-- C3 counterexample: the code checks only for the literal space
character, not for arbitrary whitespace.  With a previous part ending in a
tab — a whitespace character — the code still inserts a space: the claimed
if-and-only-if characterization fails at this input. -/
theorem C3_whitespace_cex :
    needsSpace "a\t".data "b".data = true
  ∧ isWSB '\t' = true
  ∧ reconstructRaw [⟨"a\t".data, 0, 0⟩, ⟨"b".data, 1, 0⟩] = "a\t b".data := by
  refine ⟨by decide, by decide, by decide⟩

/-- C3 amended: when appending a fragment to the current line, a single
space is inserted if and only if the previous part is non-empty, does not
end with the space character, and the new part does not begin with the
space character (the source tests the space character U+0020, not the
whitespace class); the Hello/World pair reconstructs to the claimed
string. -/
theorem C3_space_insertion_amended (f1 f2 : Frag) (hy : f1.y = f2.y)
    (hx : f1.x ≤ f2.x) :
    reconstructRaw [f1, f2]
      = trimCh (f1.str ++
          (if f1.str ≠ [] ∧ f1.str.getLast? ≠ some ' ' ∧ f2.str.head? ≠ some ' '
           then ' ' :: f2.str else f2.str))
  ∧ formatTextContent [⟨"Hello".data, 0, 100⟩, ⟨"World".data, 50, 100⟩]
      = "Hello World" := by
  refine ⟨?_, by decide⟩
  have hford : fragOrd f1 f2 := Or.inr ⟨hy.symm, hx⟩
  have hsort : sortFrags [f1, f2] = [f1, f2] := by
    unfold sortFrags
    simp only [List.insertionSort, List.orderedInsert]
    rw [if_pos hford]
  have habs : ¬ (4 : Int) < |f1.y - f2.y| := by
    rw [hy]
    simp
  unfold reconstructRaw
  rw [hsort]
  rw [buildLines, buildGo, if_neg habs, buildGo]
  simp only [List.getLast?_singleton, Option.getD_some]
  rw [joinLines, joinGo]
  simp only [List.flatten, List.append_nil, List.nil_append]
  by_cases hc : f1.str ≠ [] ∧ f1.str.getLast? ≠ some ' ' ∧ f2.str.head? ≠ some ' '
  · rw [if_pos ((needsSpace_iff f1.str f2.str).mpr hc), if_pos hc]
  · rw [if_neg ?_, if_neg hc]
    intro hb
    exact hc ((needsSpace_iff f1.str f2.str).mp hb)

/-- C3 witness: the amended statement instantiated at the Hello/World
fragments of the claim. -/
theorem C3_space_insertion_witness :
    reconstructRaw [⟨"Hello".data, 0, 100⟩, ⟨"World".data, 50, 100⟩]
      = trimCh ("Hello".data ++
          (if "Hello".data ≠ [] ∧ "Hello".data.getLast? ≠ some ' '
              ∧ "World".data.head? ≠ some ' '
           then ' ' :: "World".data else "World".data))
  ∧ formatTextContent [⟨"Hello".data, 0, 100⟩, ⟨"World".data, 50, 100⟩]
      = "Hello World" :=
  C3_space_insertion_amended ⟨"Hello".data, 0, 100⟩ ⟨"World".data, 50, 100⟩
    rfl (by decide)

/-! ### Claim C5: the whitespace-normalization step and newlines -/

theorem wsRun_out :
    ∀ (fuel : Nat) (prev : Option Char) (l : List Char), l.length ≤ fuel →
      ∀ c ∈ rewriteF mWsRun fuel prev l, isWSB c = false ∨ c = ' ' := by
  intro fuel
  induction fuel with
  | zero =>
    intro prev l hlen c hc
    have hnil : l = [] := List.length_eq_zero.mp (Nat.le_zero.mp hlen)
    subst hnil
    simp [rewriteF] at hc
  | succ n ih =>
    intro prev l hlen c hc
    cases l with
    | nil => simp [rewriteF] at hc
    | cons a t =>
      rw [rewriteF] at hc
      by_cases hw : isWSB a = true
      · have hm : mWsRun prev (a :: t)
            = some ([' '], lastD (a :: t.takeWhile isWSB) a,
                t.drop (t.takeWhile isWSB).length) := by
          simp [mWsRun, hw]
        rw [hm] at hc
        simp only [List.mem_append, List.mem_singleton] at hc
        rcases hc with hc | hc
        · exact Or.inr hc
        · refine ih _ _ ?_ c hc
          have hd : (t.drop (t.takeWhile isWSB).length).length ≤ t.length := by
            rw [List.length_drop]
            omega
          have ht : t.length + 1 ≤ n + 1 := by simpa using hlen
          omega
      · have hm : mWsRun prev (a :: t) = none := by
          simp [mWsRun, hw]
        rw [hm] at hc
        simp only [List.mem_cons] at hc
        rcases hc with hc | hc
        · exact Or.inl (hc ▸ Bool.not_eq_true _ ▸ (by simpa using hw))
        · refine ih _ _ ?_ c hc
          have ht : t.length + 1 ≤ n + 1 := by simpa using hlen
          omega

/-- C5 counterexample: the whitespace-normalization step of correctText
(line 42) collapses every whitespace run — newlines included — to a single
space, so the paragraph break of a reconstructed text does not survive it;
the corresponding step of cleanAndFormatText (lines 161-165) turns the
paragraph break into a single newline.  Both outcomes contradict the
claimed preservation of existing line and paragraph separators. -/
theorem C5_newline_cex :
    wsStageOpenai "a\n\nb".data = "a b".data
  ∧ wsStageViewer "a\n\nb".data = "a\nb".data
  ∧ ¬ '\n' ∈ wsStageOpenai "a\n\nb".data := by
  refine ⟨by decide, by decide, by decide⟩

/-- C5 amended: the whitespace step of correctText collapses all
whitespace runs (newlines included) to single spaces and trims — its output
never contains a newline — while the whitespace step of cleanAndFormatText
keeps a lone newline but collapses a newline followed by further whitespace
(in particular a paragraph break) to a single newline. -/
theorem C5_whitespace_amended :
    (∀ (l : List Char) (c : Char), c ∈ wsStageOpenai l → ¬ c = '\n')
  ∧ wsStageViewer "a\nb".data = "a\nb".data
  ∧ wsStageViewer "a\n\nb".data = "a\nb".data
  ∧ wsStageOpenai "a\n\nb".data = "a b".data := by
  refine ⟨?_, by decide, by decide, by decide⟩
  intro l c hc hne
  subst hne
  unfold wsStageOpenai at hc
  have h1 : '\n' ∈ applyRW mWsRun l := mem_trimCh hc
  have h2 := wsRun_out l.length none l (le_refl _) '\n' h1
  have hnl : isWSB '\n' = true := by decide
  rcases h2 with h2 | h2
  · exact absurd (hnl.symm.trans h2) (by decide)
  · exact absurd h2 (by decide)

/-- C5 witness: the universal part of the amended statement applied at a
concrete output character. -/
theorem C5_whitespace_amended_witness : ¬ 'a' = '\n' :=
  C5_whitespace_amended.1 "a\n\nb".data 'a' (by decide)

/-! ### Claim C6: date ranges -/

/-- C6 counterexample: the date-range rule does insert the paragraph break
after the range, but its replacement rewrites the matched text — the
matched range 2022 - 2025 is emitted as 2022-2025 and no longer occurs in
the output, contradicting the claimed character-for-character
preservation. -/
theorem C6_verbatim_cex :
    correctText "2022 - 2025 Managed the team."
      = "2022-2025\n\nManaged the team."
  ∧ hasSeq (correctTextL "2022 - 2025 Managed the team.".data)
      "2022 - 2025".data = false := by
  refine ⟨by decide, by decide⟩

/-- C6 amended: for each accepted separator (hyphen, en dash, em dash) the
normalizer forces a paragraph break immediately after the matched range
(when a non-newline character follows), but normalizes the emitted range:
a YYYY range is rewritten with a plain unspaced hyphen, an MM/YYYY range
with a spaced plain hyphen; the matched text is not preserved verbatim. -/
theorem C6_date_range_amended :
    ∀ sep ∈ ['-', '–', '—'],
      correctTextL ("2022 ".data ++ sep :: " 2025 Managed the team.".data)
        = "2022-2025\n\nManaged the team.".data
    ∧ correctTextL ("05/2020 ".data ++ sep :: " 06/2021 Led X".data)
        = "05/2020 - 06/2021\n\nLed X".data := by
  decide

/-- C6 witness: the amended statement at the en-dash separator. -/
theorem C6_date_range_witness :
    correctTextL ("2022 ".data ++ '–' :: " 2025 Managed the team.".data)
      = "2022-2025\n\nManaged the team.".data
  ∧ correctTextL ("05/2020 ".data ++ '–' :: " 06/2021 Led X".data)
      = "05/2020 - 06/2021\n\nLed X".data :=
  C6_date_range_amended '–' (by decide)

/-! ### Claim C7: section headers -/

/-- C7: for every header of the fixed vocabulary followed by further text
on the same line, correctText inserts the trailing colon and forces a
paragraph break between the header and the following text; a header already
carrying a colon is not given a second one. -/
theorem C7_section_headers :
    (∀ h ∈ secHeaders61,
        correctTextL (h ++ " Led projects".data)
          = h ++ ":\n\nLed projects".data)
  ∧ correctText "Skills: Java" = "Skills:\n\nJava" := by
  refine ⟨by decide, by decide⟩

/-- C7 witness: the header Experience, the example of the claim. -/
theorem C7_section_headers_witness :
    correctTextL ("Experience".data ++ " Led projects".data)
      = "Experience".data ++ ":\n\nLed projects".data :=
  C7_section_headers.1 "Experience".data (by decide)

/-! ### Claim C9 counterexample: the inserted hyphen -/

/-- C9 counterexample: normalizing an en-dash year range emits a plain
hyphen that occurs nowhere in the input and is outside the claimed
allow-list of space, newline and colon. -/
theorem C9_hyphen_cex :
    '-' ∈ correctTextL "2022–2025 A".data
  ∧ ¬ '-' ∈ "2022–2025 A".data
  ∧ ¬ '-' = ' ' ∧ ¬ '-' = '\n' ∧ ¬ '-' = ':' := by
  refine ⟨by decide, by decide, by decide, by decide, by decide⟩

/-! ### Claim C4: the letter-spacing repair -/

theorem rewriteF_nil (f : Matcher) :
    ∀ (fuel : Nat) (prev : Option Char), rewriteF f fuel prev [] = [] := by
  intro fuel prev
  cases fuel with
  | zero => rfl
  | succ n => rfl

/-- A run of letters written with single spaces between them. -/
def spacedOut : List Char → List Char
  | [] => []
  | [c] => [c]
  | c :: rest => c :: ' ' :: spacedOut rest

theorem parseWsLetter_sp_alpha {d : Char} (hd : isAlphaB d = true)
    (rest : List Char) : parseWsLetter (' ' :: d :: rest) = some (d, rest) := by
  have hw : List.takeWhile isWSB (' ' :: d :: rest) = [' '] := by
    rw [List.takeWhile_cons, if_pos isWSB_space, List.takeWhile_cons,
      if_neg (by simp [isAlphaB_not_ws hd])]
  simp [parseWsLetter, hw, hd]

theorem parseWsLetter_nil : parseWsLetter [] = none := by
  simp [parseWsLetter]

theorem parseWsLetter_sp_nil : parseWsLetter [' '] = none := by
  have hw : List.takeWhile isWSB [' '] = [' '] := by
    rw [List.takeWhile_cons, if_pos isWSB_space, List.takeWhile_nil]
  simp [parseWsLetter, hw]

theorem parseWsLetter_nonws {t : List Char}
    (h : ∀ c ∈ t, isWSB c = false) : parseWsLetter t = none := by
  cases t with
  | nil => exact parseWsLetter_nil
  | cons b t2 =>
    have hb : isWSB b = false := h b (List.mem_cons_self _ _)
    have hw : List.takeWhile isWSB (b :: t2) = [] := by
      rw [List.takeWhile_cons, if_neg (by simp [hb])]
    simp [parseWsLetter, hw]

theorem chainAfter_succ (m : Nat) (l : List Char) :
    chainAfter (m + 1) l
      = match parseWsLetter l with
        | some (c, rest) =>
          match chainAfter m rest with
          | some (ls, r) => some (c :: ls, r)
          | none => none
        | none => none := rfl

theorem chainAfter_zero_nil : chainAfter 0 [] = some ([], []) := rfl

theorem chainAfter_spaced :
    ∀ (ds : List Char), ds ≠ [] → (∀ c ∈ ds, isAlphaB c = true) →
      chainAfter ds.length (' ' :: spacedOut ds) = some (ds, []) := by
  intro ds
  induction ds with
  | nil => intro h; exact absurd rfl h
  | cons d ds ih =>
    intro _ ha
    have had : isAlphaB d = true := ha d (List.mem_cons_self _ _)
    cases ds with
    | nil =>
      show chainAfter (0 + 1) [' ', d] = some ([d], [])
      rw [chainAfter_succ]
      simp only [parseWsLetter_sp_alpha had [], chainAfter_zero_nil]
    | cons e ds2 =>
      show chainAfter ((e :: ds2).length + 1)
          (' ' :: d :: ' ' :: spacedOut (e :: ds2)) = _
      rw [chainAfter_succ]
      simp only [parseWsLetter_sp_alpha had (' ' :: spacedOut (e :: ds2)),
        ih (by simp) (fun x hx => ha x (List.mem_cons_of_mem _ hx))]

theorem chainAfter_short :
    ∀ (ds : List Char) (m : Nat), (∀ c ∈ ds, isAlphaB c = true) →
      ds.length < m → chainAfter m (' ' :: spacedOut ds) = none := by
  intro ds
  induction ds with
  | nil =>
    intro m _ hm
    cases m with
    | zero => omega
    | succ k =>
      show chainAfter (k + 1) [' '] = none
      rw [chainAfter_succ]
      simp only [parseWsLetter_sp_nil]
  | cons d ds ih =>
    intro m ha hm
    have had : isAlphaB d = true := ha d (List.mem_cons_self _ _)
    cases m with
    | zero => omega
    | succ k =>
      cases ds with
      | nil =>
        show chainAfter (k + 1) [' ', d] = none
        have hk : 1 ≤ k := by
          simp only [List.length_cons, List.length_nil] at hm
          omega
        cases k with
        | zero => omega
        | succ k2 =>
          simp only [chainAfter_succ, parseWsLetter_sp_alpha had [],
            parseWsLetter_nil]
      | cons e ds2 =>
        show chainAfter (k + 1) (' ' :: d :: ' ' :: spacedOut (e :: ds2)) = none
        rw [chainAfter_succ]
        simp only [parseWsLetter_sp_alpha had (' ' :: spacedOut (e :: ds2)),
          ih k (fun x hx => ha x (List.mem_cons_of_mem _ hx))
            (by simp only [List.length_cons] at hm ⊢; omega)]

theorem mCascade_cons_none {k : Nat} {prev : Option Char} {c : Char}
    {cs : List Char} (h : chainAfter (k - 1) cs = none) :
    mCascade k prev (c :: cs) = none := by
  by_cases hb : boundaryBefore prev = true <;>
    by_cases hc : isAlphaB c = true <;>
      simp [mCascade, hb, hc, h]

theorem mCascade_head_nonalpha {k : Nat} {prev : Option Char} {c : Char}
    {cs : List Char} (h : isAlphaB c = false) :
    mCascade k prev (c :: cs) = none := by
  by_cases hb : boundaryBefore prev = true <;> simp [mCascade, hb, h]

theorem cascade_collapse (cs : List Char) (h2 : 2 ≤ cs.length)
    (ha : ∀ c ∈ cs, isAlphaB c = true) :
    applyRW (mCascade cs.length) (spacedOut cs) = cs := by
  cases cs with
  | nil => simp at h2
  | cons c ds =>
    cases ds with
    | nil => simp at h2
    | cons d ds2 =>
      have hac : isAlphaB c = true := ha c (List.mem_cons_self _ _)
      have hm : mCascade (c :: d :: ds2).length none
          (c :: ' ' :: spacedOut (d :: ds2))
          = some (c :: d :: ds2, lastD (c :: d :: ds2) c, []) := by
        have hlen : (c :: d :: ds2).length - 1 = (d :: ds2).length := by simp
        simp only [mCascade, boundaryBefore, if_true, hac, hlen,
          chainAfter_spaced (d :: ds2) (by simp)
            (fun x hx => ha x (List.mem_cons_of_mem _ hx))]
      show rewriteF (mCascade (c :: d :: ds2).length)
          (spacedOut (c :: d :: ds2)).length none (spacedOut (c :: d :: ds2))
          = _
      rw [show spacedOut (c :: d :: ds2)
          = c :: ' ' :: spacedOut (d :: ds2) from rfl]
      rw [show (c :: ' ' :: spacedOut (d :: ds2)).length
          = (spacedOut (d :: ds2)).length + 1 + 1 from by simp]
      simp only [rewriteF, hm, rewriteF_nil]
      simp

theorem cascade_skip :
    ∀ (cs : List Char) (fuel : Nat) (prev : Option Char) (k : Nat),
      (∀ c ∈ cs, isAlphaB c = true) → cs.length < k →
      rewriteF (mCascade k) fuel prev (spacedOut cs) = spacedOut cs := by
  intro cs
  induction cs with
  | nil =>
    intro fuel prev k _ _
    rw [show spacedOut [] = [] from rfl, rewriteF_nil]
  | cons c ds ih =>
    intro fuel prev k ha hk
    have hac : isAlphaB c = true := ha c (List.mem_cons_self _ _)
    cases ds with
    | nil =>
      cases fuel with
      | zero => rfl
      | succ n =>
        rw [show spacedOut [c] = [c] from rfl]
        have hm : mCascade k prev [c] = none := by
          apply mCascade_cons_none
          have hk1 : 1 ≤ k - 1 := by
            simp only [List.length_cons, List.length_nil] at hk
            omega
          cases hkk : k - 1 with
          | zero => omega
          | succ j =>
            rw [chainAfter_succ]
            simp only [parseWsLetter_nil]
        simp only [rewriteF, hm, rewriteF_nil]
    | cons d ds2 =>
      cases fuel with
      | zero => rfl
      | succ n =>
        rw [show spacedOut (c :: d :: ds2)
            = c :: ' ' :: spacedOut (d :: ds2) from rfl]
        have hm : mCascade k prev (c :: ' ' :: spacedOut (d :: ds2)) = none := by
          apply mCascade_cons_none
          have hlt : (d :: ds2).length < k - 1 := by
            simp only [List.length_cons] at hk ⊢
            omega
          exact chainAfter_short (d :: ds2) (k - 1)
            (fun x hx => ha x (List.mem_cons_of_mem _ hx)) hlt
        cases n with
        | zero => simp only [rewriteF, hm]
        | succ n2 =>
          have hm2 : mCascade k (some c) (' ' :: spacedOut (d :: ds2)) = none :=
            mCascade_head_nonalpha (by decide)
          simp only [rewriteF, hm, hm2]
          rw [ih n2 (some ' ') k (fun x hx => ha x (List.mem_cons_of_mem _ hx))
            (by simp only [List.length_cons] at hk ⊢; omega)]

theorem cascade_nows :
    ∀ (l : List Char) (fuel : Nat) (prev : Option Char) (k : Nat),
      (∀ c ∈ l, isWSB c = false) → 2 ≤ k →
      rewriteF (mCascade k) fuel prev l = l := by
  intro l
  induction l with
  | nil => intro fuel prev k _ _; exact rewriteF_nil _ _ _
  | cons a t ih =>
    intro fuel prev k hws hk
    cases fuel with
    | zero => rfl
    | succ n =>
      have hm : mCascade k prev (a :: t) = none := by
        apply mCascade_cons_none
        cases hkk : k - 1 with
        | zero => omega
        | succ j =>
          rw [chainAfter_succ]
          simp only
            [parseWsLetter_nonws (fun c hc => hws c (List.mem_cons_of_mem _ hc))]
      simp only [rewriteF, hm]
      rw [ih n (some a) k (fun c hc => hws c (List.mem_cons_of_mem _ hc)) hk]

/-- C4: a standalone run of n single letters (2 ≤ n ≤ 6) separated by
single spaces and bounded by word boundaries is collapsed by the cascading
letter-spacing stage of correctText into the joined letters, the longer
patterns being applied before the shorter ones; in particular correctText
turns A d m i n into Admin. -/
theorem C4_letter_spacing (cs : List Char) (ha : ∀ c ∈ cs, isAlphaB c = true)
    (h2 : 2 ≤ cs.length) (h6 : cs.length ≤ 6) :
    letterStage (spacedOut cs) = cs ∧ correctText "A d m i n" = "Admin" := by
  refine ⟨?_, by decide⟩
  have hnows : ∀ c ∈ cs, isWSB c = false :=
    fun c hc => isAlphaB_not_ws (ha c hc)
  have hskip : ∀ k, cs.length < k →
      applyRW (mCascade k) (spacedOut cs) = spacedOut cs :=
    fun k hks => cascade_skip cs (spacedOut cs).length none k ha hks
  have hcoll : applyRW (mCascade cs.length) (spacedOut cs) = cs :=
    cascade_collapse cs h2 ha
  have hid : ∀ k, 2 ≤ k → applyRW (mCascade k) cs = cs :=
    fun k hks => cascade_nows cs cs.length none k hnows hks
  unfold letterStage
  have hlen : cs.length = 2 ∨ cs.length = 3 ∨ cs.length = 4 ∨ cs.length = 5
      ∨ cs.length = 6 := by omega
  rcases hlen with hl | hl | hl | hl | hl
  · rw [hskip 6 (by omega), hskip 5 (by omega), hskip 4 (by omega),
      hskip 3 (by omega), ← hl, hcoll]
  · rw [hskip 6 (by omega), hskip 5 (by omega), hskip 4 (by omega),
      ← hl, hcoll, hid 2 (by omega)]
  · rw [hskip 6 (by omega), hskip 5 (by omega), ← hl, hcoll,
      hid 3 (by omega), hid 2 (by omega)]
  · rw [hskip 6 (by omega), ← hl, hcoll, hid 4 (by omega), hid 3 (by omega),
      hid 2 (by omega)]
  · rw [← hl, hcoll, hid 5 (by omega), hid 4 (by omega), hid 3 (by omega),
      hid 2 (by omega)]

/-- C4 witness: the five-letter run of the claim. -/
theorem C4_letter_spacing_witness :
    letterStage (spacedOut "Admin".data) = "Admin".data
  ∧ correctText "A d m i n" = "Admin" :=
  C4_letter_spacing "Admin".data (by decide) (by decide) (by decide)

/-! ### Claim C9: provenance of output characters -/

/-- The characters the normalizer may introduce beyond those of its input:
space, newline, colon and the plain hyphen of the date-range rewrites. -/
def allowC9 : List Char := [' ', '\n', ':', '-']

theorem slice_mem {l y r : List Char} {n : Nat}
    (h : (some (l.take n, l.drop n) : Option (List Char × List Char))
      = some (y, r)) :
    (∀ c ∈ y, c ∈ l) ∧ (∀ c ∈ r, c ∈ l) := by
  simp only [Option.some.injEq, Prod.mk.injEq] at h
  obtain ⟨h1, h2⟩ := h
  subst h1; subst h2
  exact ⟨fun c hc => mem_take' hc, fun c hc => mem_drop' hc⟩

theorem parse4d_mem {l y r : List Char} (h : parse4d l = some (y, r)) :
    (∀ c ∈ y, c ∈ l) ∧ (∀ c ∈ r, c ∈ l) := by
  unfold parse4d at h
  split at h
  · split at h
    · exact slice_mem h
    · exact absurd h (by simp)
  · exact absurd h (by simp)

theorem parseMmY_mem {l y r : List Char} (h : parseMmY l = some (y, r)) :
    (∀ c ∈ y, c ∈ l) ∧ (∀ c ∈ r, c ∈ l) := by
  unfold parseMmY at h
  split at h
  · split at h
    · split at h
      · exact slice_mem h
      · exact absurd h (by simp)
    · split at h
      · split at h
        · split at h
          · split at h
            · exact slice_mem h
            · exact absurd h (by simp)
          · exact absurd h (by simp)
        · exact absurd h (by simp)
      · exact absurd h (by simp)
  · exact absurd h (by simp)

theorem parseYearWord_mem {l y r : List Char}
    (h : parseYearWord l = some (y, r)) :
    (∀ c ∈ y, c ∈ l) ∧ (∀ c ∈ r, c ∈ l) := by
  unfold parseYearWord at h
  split at h
  case h_1 r4 heq =>
    simp only [Option.some.injEq] at h
    subst h
    exact parse4d_mem heq
  case h_2 =>
    split at h
    · exact slice_mem h
    · split at h
      · exact slice_mem h
      · exact absurd h (by simp)

theorem parseMonthWord_mem {l y r : List Char}
    (h : parseMonthWord l = some (y, r)) :
    (∀ c ∈ y, c ∈ l) ∧ (∀ c ∈ r, c ∈ l) := by
  unfold parseMonthWord at h
  split at h
  case h_1 r4 heq =>
    simp only [Option.some.injEq] at h
    subst h
    exact parseMmY_mem heq
  case h_2 =>
    split at h
    · exact slice_mem h
    · split at h
      · exact slice_mem h
      · exact absurd h (by simp)

theorem wsThenNonNl_mem {l : List Char} {c : Char} {r : List Char}
    (h : wsThenNonNl l = some (c, r)) :
    c ∈ l ∧ ∀ x ∈ r, x ∈ l := by
  unfold wsThenNonNl at h
  split at h
  case h_1 c2 cs heq =>
    simp only [Option.some.injEq, Prod.mk.injEq] at h
    obtain ⟨h1, h2⟩ := h
    subst h1; subst h2
    constructor
    · exact mem_drop' (heq ▸ List.mem_cons_self _ _)
    · intro x hx
      exact mem_drop' (heq ▸ List.mem_cons_of_mem _ hx)
  case h_2 heq =>
    split at h
    case h_1 c2 rest2 heq2 =>
      simp only [Option.some.injEq, Prod.mk.injEq] at h
      obtain ⟨h1, h2⟩ := h
      constructor
      · rw [← h1]
        have hm : c2 ∈ (l.takeWhile isWSB).reverse :=
          mem_drop' (heq2 ▸ List.mem_cons_self c2 rest2)
        rw [List.mem_reverse] at hm
        exact mem_takeWhile' hm
      · intro x hx
        rw [← h2, List.mem_reverse] at hx
        have hx2 : x ∈ (l.takeWhile isWSB).reverse := mem_takeWhile' hx
        rw [List.mem_reverse] at hx2
        exact mem_takeWhile' hx2
    case h_2 => exact absurd h (by simp)

theorem parseWsLetter_mem {l : List Char} {c : Char} {r : List Char}
    (h : parseWsLetter l = some (c, r)) : c ∈ l ∧ ∀ x ∈ r, x ∈ l := by
  simp only [parseWsLetter] at h
  split at h
  · exact absurd h (by simp)
  · split at h
    case h_1 c2 cs heq =>
      split at h
      · simp only [Option.some.injEq, Prod.mk.injEq] at h
        obtain ⟨h1, h2⟩ := h
        constructor
        · rw [← h1]
          exact mem_drop' (heq ▸ List.mem_cons_self c2 cs)
        · intro x hx
          rw [← h2] at hx
          exact mem_drop' (heq ▸ List.mem_cons_of_mem _ hx)
      · exact absurd h (by simp)
    case h_2 => exact absurd h (by simp)

theorem chainAfter_mem :
    ∀ (m : Nat) (l ls r : List Char), chainAfter m l = some (ls, r) →
      (∀ c ∈ ls, c ∈ l) ∧ (∀ c ∈ r, c ∈ l) := by
  intro m
  induction m with
  | zero =>
    intro l ls r h
    cases l with
    | nil =>
      simp only [chainAfter] at h
      simp only [Option.some.injEq, Prod.mk.injEq] at h
      obtain ⟨h1, h2⟩ := h
      subst h1; subst h2
      exact ⟨by simp, by simp⟩
    | cons a t =>
      simp only [chainAfter] at h
      split at h
      · exact absurd h (by simp)
      · simp only [Option.some.injEq, Prod.mk.injEq] at h
        obtain ⟨h1, h2⟩ := h
        subst h1; subst h2
        exact ⟨by simp, fun c hc => hc⟩
  | succ n ih =>
    intro l ls r h
    rw [chainAfter_succ] at h
    split at h
    case h_1 p c2 rest heq =>
      split at h
      case h_1 q ls2 r2 heq2 =>
        simp only [Option.some.injEq, Prod.mk.injEq] at h
        obtain ⟨h1, h2⟩ := h
        have hp := parseWsLetter_mem heq
        have hc := ih rest ls2 r2 heq2
        constructor
        · intro x hx
          rw [← h1] at hx
          rcases List.mem_cons.mp hx with hx | hx
          · exact hx ▸ hp.1
          · exact hp.2 x (hc.1 x hx)
        · intro x hx
          rw [← h2] at hx
          exact hp.2 x (hc.2 x hx)
      case h_2 => exact absurd h (by simp)
    case h_2 => exact absurd h (by simp)

theorem mCascade_mp (n : Nat) : MP (mCascade n) [] := by
  intro prev l rep lc rest h
  simp only [mCascade] at h
  split at h
  · split at h
    case h_1 c cs =>
      split at h
      · split at h
        case h_1 p ls rest2 heq =>
          simp only [Option.some.injEq, Prod.mk.injEq] at h
          obtain ⟨h1, _, h3⟩ := h
          have hc := chainAfter_mem (n - 1) cs ls rest2 heq
          constructor
          · intro x hx
            rw [← h1] at hx
            left
            rcases List.mem_cons.mp hx with hx | hx
            · exact hx ▸ List.mem_cons_self _ _
            · exact List.mem_cons_of_mem _ (hc.1 x hx)
          · intro x hx
            rw [← h3] at hx
            exact List.mem_cons_of_mem _ (hc.2 x hx)
        case h_2 => exact absurd h (by simp)
      · exact absurd h (by simp)
    case h_2 => exact absurd h (by simp)
  · exact absurd h (by simp)

theorem findCI_mem :
    ∀ (hs : List (List Char)) (l hh r : List Char),
      findCI hs l = some (hh, r) → (∀ c ∈ hh, c ∈ l) ∧ (∀ c ∈ r, c ∈ l) := by
  intro hs
  induction hs with
  | nil => intro l hh r h; simp [findCI] at h
  | cons p ps ih =>
    intro l hh r h
    simp only [findCI] at h
    split at h
    · exact slice_mem h
    · exact ih l hh r h

theorem colonBranch_mem {m : List Char} {c : Char} {r : List Char}
    (h : colonBranch m = some (c, r)) : c ∈ m ∧ ∀ x ∈ r, x ∈ m := by
  unfold colonBranch at h
  split at h
  case h_1 m2 =>
    split at h
    case h_1 r0 heq =>
      obtain ⟨c0, r2⟩ := r0
      simp only [Option.some.injEq, Prod.mk.injEq] at h
      obtain ⟨h1, h2⟩ := h
      have hm := wsThenNonNl_mem heq
      constructor
      · rw [← h1]
        exact List.mem_cons_of_mem _ hm.1
      · intro x hx
        rw [← h2] at hx
        exact List.mem_cons_of_mem _ (hm.2 x hx)
    case h_2 =>
      simp only [Option.some.injEq, Prod.mk.injEq] at h
      obtain ⟨h1, h2⟩ := h
      constructor
      · rw [← h1]
        exact List.mem_cons_self _ _
      · intro x hx
        rw [← h2] at hx
        exact List.mem_cons_of_mem _ hx
  case h_2 => exact wsThenNonNl_mem h

theorem tailColonGo_mem :
    ∀ (k : Nat) (m : List Char) (c : Char) (r : List Char),
      tailColonGo k m = some (c, r) → c ∈ m ∧ ∀ x ∈ r, x ∈ m := by
  intro k
  induction k with
  | zero =>
    intro m c r h
    simp only [tailColonGo] at h
    exact colonBranch_mem h
  | succ n ih =>
    intro m c r h
    simp only [tailColonGo] at h
    split at h
    case h_1 r0 heq =>
      obtain ⟨c0, r2⟩ := r0
      simp only [Option.some.injEq, Prod.mk.injEq] at h
      obtain ⟨h1, h2⟩ := h
      have hm := colonBranch_mem heq
      constructor
      · rw [← h1]
        exact mem_drop' hm.1
      · intro x hx
        rw [← h2] at hx
        exact mem_drop' (hm.2 x hx)
    case h_2 => exact ih m c r h

theorem tailColon_mem {m : List Char} {c : Char} {r : List Char}
    (h : tailColon m = some (c, r)) : c ∈ m ∧ ∀ x ∈ r, x ∈ m :=
  tailColonGo_mem _ m c r h

theorem mPageBreak_mp : MP mPageBreak [] := by
  intro prev l rep lc rest h
  simp only [mPageBreak] at h
  split at h
  · split at h
    · split at h
      · split at h
        · simp only [Option.some.injEq, Prod.mk.injEq] at h
          obtain ⟨h1, _, h3⟩ := h
          subst h1; subst h3
          refine ⟨by simp, ?_⟩
          intro c hc
          exact mem_drop' (mem_dropWhile' (mem_drop' (mem_dropWhile'
            (mem_drop' (mem_dropWhile' (mem_drop' hc))))))
        · exact absurd h (by simp)
      · exact absurd h (by simp)
    · exact absurd h (by simp)
  · exact absurd h (by simp)

theorem mHyphenNl_mp : MP mHyphenNl [] := by
  intro prev l rep lc rest h
  simp only [mHyphenNl] at h
  split at h
  · exact absurd h (by simp)
  · split at h
    case h_1 r2 heq =>
      split at h
      · split at h
        · exact absurd h (by simp)
        · simp only [Option.some.injEq, Prod.mk.injEq] at h
          obtain ⟨h1, _, h3⟩ := h
          have hr2 : ∀ x ∈ r2, x ∈ l := by
            intro x hx
            exact mem_drop' (heq ▸ List.mem_cons_of_mem _ hx)
          constructor
          · intro c hc
            rw [← h1] at hc
            left
            rcases List.mem_append.mp hc with hc | hc
            · exact mem_takeWhile' hc
            · exact hr2 c (mem_drop' (mem_takeWhile' hc))
          · intro c hc
            rw [← h3] at hc
            exact hr2 c (mem_drop' (mem_drop' hc))
      · exact absurd h (by simp)
    case h_2 => exact absurd h (by simp)

theorem mWsRun_mp : MP mWsRun [' '] := by
  intro prev l rep lc rest h
  simp only [mWsRun] at h
  split at h
  case h_1 c cs =>
    split at h
    · simp only [Option.some.injEq, Prod.mk.injEq] at h
      obtain ⟨h1, _, h3⟩ := h
      constructor
      · intro x hx
        rw [← h1] at hx
        right
        simpa using hx
      · intro x hx
        rw [← h3] at hx
        exact List.mem_cons_of_mem _ (mem_drop' hx)
    · exact absurd h (by simp)
  case h_2 => exact absurd h (by simp)

theorem mSentenceDot_mp : MP mSentenceDot ['\n'] := by
  intro prev l rep lc rest h
  simp only [mSentenceDot] at h
  split at h
  case h_1 cs =>
    split at h
    · exact absurd h (by simp)
    · split at h
      case h_1 c2 rest2 heq =>
        split at h
        · simp only [Option.some.injEq, Prod.mk.injEq] at h
          obtain ⟨h1, _, h3⟩ := h
          have hc2 : c2 ∈ '.' :: cs :=
            List.mem_cons_of_mem _ (mem_drop' (heq ▸ List.mem_cons_self c2 rest2))
          constructor
          · intro x hx
            rw [← h1] at hx
            simp only [List.mem_cons, List.not_mem_nil, or_false] at hx
            rcases hx with hx | hx | hx | hx
            · subst hx; exact Or.inl (List.mem_cons_self _ _)
            · subst hx; exact Or.inr (by simp)
            · subst hx; exact Or.inr (by simp)
            · subst hx; exact Or.inl hc2
          · intro x hx
            rw [← h3] at hx
            exact List.mem_cons_of_mem _
              (mem_drop' (heq ▸ List.mem_cons_of_mem _ hx))
        · exact absurd h (by simp)
      case h_2 => exact absurd h (by simp)
  case h_2 => exact absurd h (by simp)

theorem mDate48_mp : MP mDate48 ['-', '\n'] := by
  intro prev l rep lc rest h
  simp only [mDate48] at h
  split at h
  case h_1 => exact absurd h (by simp)
  case h_2 p y1 r1 heq1 =>
    split at h
    case h_1 d r3 heqd =>
      split at h
      · split at h
        case h_1 q y2 r5 heq2 =>
          split at h
          case h_1 q2 c3 r6 heq3 =>
            simp only [Option.some.injEq, Prod.mk.injEq] at h
            obtain ⟨h1, _, h3⟩ := h
            have hp1 := parse4d_mem heq1
            have hp2 := parseYearWord_mem heq2
            have hp3 := wsThenNonNl_mem heq3
            have hr3 : ∀ x ∈ r3, x ∈ l := by
              intro x hx
              exact hp1.2 x (mem_drop' (heqd ▸ List.mem_cons_of_mem _ hx))
            have hr5 : ∀ x ∈ r5, x ∈ l := by
              intro x hx
              exact hr3 x (mem_drop' (hp2.2 x hx))
            constructor
            · intro x hx
              rw [← h1] at hx
              rcases List.mem_append.mp hx with hx | hx
              · exact Or.inl (hp1.1 x hx)
              · rcases List.mem_cons.mp hx with hx | hx
                · subst hx; exact Or.inr (by simp)
                · rcases List.mem_append.mp hx with hx | hx
                  · exact Or.inl (hr3 x (mem_drop' (hp2.1 x hx)))
                  · simp only [List.mem_cons, List.not_mem_nil, or_false] at hx
                    rcases hx with hx | hx | hx
                    · subst hx; exact Or.inr (by simp)
                    · subst hx; exact Or.inr (by simp)
                    · subst hx; exact Or.inl (hr5 x (by exact hp3.1))
            · intro x hx
              rw [← h3] at hx
              exact hr5 x (hp3.2 x hx)
          case h_2 => exact absurd h (by simp)
        case h_2 => exact absurd h (by simp)
      · exact absurd h (by simp)
    case h_2 => exact absurd h (by simp)

theorem mDate49_mp : MP mDate49 [' ', '-', '\n'] := by
  intro prev l rep lc rest h
  simp only [mDate49] at h
  split at h
  case h_1 => exact absurd h (by simp)
  case h_2 p g1 r1 heq1 =>
    split at h
    case h_1 d r3 heqd =>
      split at h
      · split at h
        case h_1 q g2 r5 heq2 =>
          split at h
          case h_1 q2 c3 r6 heq3 =>
            simp only [Option.some.injEq, Prod.mk.injEq] at h
            obtain ⟨h1, _, h3⟩ := h
            have hp1 := parseMmY_mem heq1
            have hp2 := parseMonthWord_mem heq2
            have hp3 := wsThenNonNl_mem heq3
            have hr3 : ∀ x ∈ r3, x ∈ l := by
              intro x hx
              exact hp1.2 x (mem_drop' (heqd ▸ List.mem_cons_of_mem _ hx))
            have hr5 : ∀ x ∈ r5, x ∈ l := by
              intro x hx
              exact hr3 x (mem_drop' (hp2.2 x hx))
            constructor
            · intro x hx
              rw [← h1] at hx
              rcases List.mem_append.mp hx with hx | hx
              · exact Or.inl (hp1.1 x hx)
              · rcases List.mem_cons.mp hx with hx | hx
                · subst hx; exact Or.inr (by simp)
                · rcases List.mem_cons.mp hx with hx | hx
                  · subst hx; exact Or.inr (by simp)
                  · rcases List.mem_cons.mp hx with hx | hx
                    · subst hx; exact Or.inr (by simp)
                    · rcases List.mem_append.mp hx with hx | hx
                      · exact Or.inl (hr3 x (mem_drop' (hp2.1 x hx)))
                      · simp only [List.mem_cons, List.not_mem_nil, or_false] at hx
                        rcases hx with hx | hx | hx
                        · subst hx; exact Or.inr (by simp)
                        · subst hx; exact Or.inr (by simp)
                        · subst hx; exact Or.inl (hr5 x hp3.1)
            · intro x hx
              rw [← h3] at hx
              exact hr5 x (hp3.2 x hx)
          case h_2 => exact absurd h (by simp)
        case h_2 => exact absurd h (by simp)
      · exact absurd h (by simp)
    case h_2 => exact absurd h (by simp)

theorem mSection61_mp : MP mSection61 [':', '\n'] := by
  intro prev l rep lc rest h
  simp only [mSection61] at h
  split at h
  case h_1 p hh r heq1 =>
    split at h
    case h_1 q c2 rest2 heq2 =>
      simp only [Option.some.injEq, Prod.mk.injEq] at h
      obtain ⟨h1, _, h3⟩ := h
      have hf := findCI_mem secHeaders61 l hh r heq1
      have ht := tailColon_mem heq2
      constructor
      · intro x hx
        rw [← h1] at hx
        rcases List.mem_append.mp hx with hx | hx
        · exact Or.inl (hf.1 x hx)
        · simp only [List.mem_cons, List.not_mem_nil, or_false] at hx
          rcases hx with hx | hx | hx | hx
          · subst hx; exact Or.inr (by simp)
          · subst hx; exact Or.inr (by simp)
          · subst hx; exact Or.inr (by simp)
          · subst hx; exact Or.inl (hf.2 x ht.1)
      · intro x hx
        rw [← h3] at hx
        exact hf.2 x (ht.2 x hx)
    case h_2 => exact absurd h (by simp)
  case h_2 => exact absurd h (by simp)

theorem mNlRegion_mp : MP mNlRegion ['\n'] := by
  intro prev l rep lc rest h
  simp only [mNlRegion] at h
  split at h
  case h_1 =>
    split at h
    · simp only [Option.some.injEq, Prod.mk.injEq] at h
      obtain ⟨h1, _, h3⟩ := h
      constructor
      · intro x hx
        rw [← h1] at hx
        right
        simpa using hx
      · intro x hx
        rw [← h3] at hx
        exact mem_drop' hx
    · exact absurd h (by simp)
  case h_2 => exact absurd h (by simp)

/-! ### Assembly of the provenance property for correctText -/

/-- A string transformation that introduces only allow-listed characters. -/
def Carry (g : List Char → List Char) : Prop :=
  ∀ l c, c ∈ g l → c ∈ l ∨ c ∈ allowC9

theorem carry_applyRW {m : Matcher} {lits : List Char} (hm : MP m lits)
    (hsub : ∀ c ∈ lits, c ∈ allowC9) : Carry (applyRW m) := by
  intro l c h
  rcases applyRW_mem hm h with h2 | h2
  · exact Or.inl h2
  · exact Or.inr (hsub c h2)

theorem carry_comp {g g' : List Char → List Char} (hg : Carry g)
    (hg' : Carry g') : Carry (fun l => g' (g l)) := by
  intro l c h
  rcases hg' (g l) c h with h2 | h2
  · exact hg l c h2
  · exact Or.inr h2

theorem carry_foldl :
    ∀ (steps : List (List Char → List Char)), (∀ g ∈ steps, Carry g) →
      ∀ l c, c ∈ steps.foldl (fun t g => g t) l → c ∈ l ∨ c ∈ allowC9 := by
  intro steps
  induction steps with
  | nil => intro _ l c h; exact Or.inl (by simpa using h)
  | cons g gs ih =>
    intro hall l c h
    simp only [List.foldl_cons] at h
    rcases ih (fun g2 hg2 => hall g2 (List.mem_cons_of_mem _ hg2)) (g l) c h
        with h2 | h2
    · exact hall g (List.mem_cons_self _ _) l c h2
    · exact Or.inr h2

theorem carry_letterStage : Carry letterStage := by
  have hstep : ∀ (k : Nat) (t : List Char) (c : Char),
      c ∈ applyRW (mCascade k) t → c ∈ t := by
    intro k t c hc
    rcases applyRW_mem (mCascade_mp k) hc with h2 | h2
    · exact h2
    · simp at h2
  intro l c h
  unfold letterStage at h
  exact Or.inl (hstep 6 _ _ (hstep 5 _ _ (hstep 4 _ _ (hstep 3 _ _
    (hstep 2 _ _ h)))))

theorem carry_wsStageOpenai : Carry wsStageOpenai := by
  intro l c h
  unfold wsStageOpenai at h
  have h2 : c ∈ applyRW mWsRun l := mem_trimCh h
  rcases applyRW_mem mWsRun_mp h2 with h3 | h3
  · exact Or.inl h3
  · right
    simp only [allowC9]
    simpa using Or.inl (by simpa using h3)

theorem carry_correctTextL : Carry correctTextL := by
  intro l c h
  unfold correctTextL at h
  by_cases he : l.isEmpty
  · rw [if_pos he] at h
    simp at h
  · rw [if_neg he] at h
    refine carry_foldl correctSteps ?_ l c h
    intro g hg
    simp only [correctSteps, List.mem_cons, List.not_mem_nil, or_false] at hg
    rcases hg with hg | hg | hg | hg | hg | hg | hg | hg | hg | hg | hg | hg |
      hg | hg | hg | hg | hg <;> subst hg
    · exact carry_applyRW (mDelClass_mp _) (by simp)
    · exact carry_applyRW mPageBreak_mp (by simp)
    · exact carry_applyRW (mDelClass_mp _) (by simp)
    · exact carry_applyRW (mDelClass_mp _) (by simp)
    · exact carry_applyRW (mDelClass_mp _) (by simp)
    · exact carry_applyRW (mDelClass_mp _) (by simp)
    · exact carry_applyRW (mDelClass_mp _) (by simp)
    · exact carry_applyRW (mDelClass_mp _) (by simp)
    · exact carry_applyRW (mDelClass_mp _) (by simp)
    · exact carry_applyRW mHyphenNl_mp (by simp)
    · exact carry_letterStage
    · exact carry_wsStageOpenai
    · exact carry_applyRW mSentenceDot_mp (by simp [allowC9])
    · exact carry_applyRW mDate48_mp (by simp [allowC9])
    · exact carry_applyRW mDate49_mp (by simp [allowC9])
    · exact carry_applyRW mSection61_mp (by simp [allowC9])
    · exact carry_applyRW mNlRegion_mp (by simp [allowC9])

/-- C9 amended: every character of correctText's output either occurs in
the input or is one of the inserted characters space, newline, colon or
hyphen (the hyphen being emitted by the date-range rewrites). -/
theorem C9_output_chars (s : String) (c : Char)
    (h : c ∈ (correctText s).data) :
    c ∈ s.data ∨ c = ' ' ∨ c = '\n' ∨ c = ':' ∨ c = '-' := by
  have h2 : c ∈ correctTextL s.data := by
    simpa [correctText] using h
  rcases carry_correctTextL s.data c h2 with h3 | h3
  · exact Or.inl h3
  · right
    simpa [allowC9] using h3

/-- C9 witness: the inserted newline of a sentence break. -/
theorem C9_output_chars_witness :
    '\n' ∈ ("A. B" : String).data ∨ '\n' = ' ' ∨ '\n' = '\n' ∨ '\n' = ':'
      ∨ '\n' = '-' :=
  C9_output_chars "A. B" '\n' (by decide)

/-! ### Claim C10: two-letter spaced runs survive fixSpacedLetters -/

theorem collectMatches_nil :
    ∀ (fuel : Nat) (prev : Option Char), collectMatches fuel prev [] = [] := by
  intro fuel prev
  cases fuel with
  | zero => rfl
  | succ n => rfl

theorem collectMatches_cons_match {prev : Option Char} {c : Char}
    {cs m : List Char} {lc : Char} {rest : List Char} {n : Nat}
    (h : mSpacedRun prev (c :: cs) = some (m, lc, rest)) :
    collectMatches (n + 1) prev (c :: cs)
      = m :: collectMatches n (some lc) rest := by
  simp [collectMatches, h]

/-- C10: a spaced-out run of two letters joins to only two characters, so
fixSpacedLetters matches it but declines to replace it (the joined word
must be longer than two characters); in particular the text I T survives
the whole cleanAndFormatText normalization with its interior space
intact. -/
theorem C10_short_runs (a b : Char) (ha : isAlphaB a = true)
    (hb : isAlphaB b = true) :
    fixSpacedLettersL [a, ' ', b] = [a, ' ', b]
  ∧ cleanAndFormatText "I T" = "I T" := by
  refine ⟨?_, by decide⟩
  have hcr : chainRest [a, ' ', b] = some ([a, ' ', b], []) := by
    simp [chainRest, ha, hb, boundaryAfter]
  have hm : mSpacedRun none [a, ' ', b]
      = some ([a, ' ', b], lastD [a, ' ', b] ' ', []) := by
    simp [mSpacedRun, boundaryBefore, hcr]
  have hfil : List.filter (fun c => !(c = ' ')) [a, ' ', b] = [a, b] := by
    simp [isAlphaB_ne_space ha, isAlphaB_ne_space hb]
  unfold fixSpacedLettersL
  rw [show ([a, ' ', b] : List Char).length = 2 + 1 from rfl]
  rw [collectMatches_cons_match hm, collectMatches_nil]
  simp only [List.foldl_cons, List.foldl_nil, hfil]
  simp

/-- C10 witness: the claim's concrete two-letter run. -/
theorem C10_short_runs_witness :
    fixSpacedLettersL ['I', ' ', 'T'] = ['I', ' ', 'T']
  ∧ cleanAndFormatText "I T" = "I T" :=
  C10_short_runs 'I' 'T' (by decide) (by decide)

/-! ### Claim C8: empty inputs -/

/-- C8: the empty fragment list reconstructs to the empty string, and both
normalizers map the empty string to the empty string; no stage fails. -/
theorem C8_empty_inputs :
    formatTextContent [] = "" ∧ correctText "" = ""
  ∧ cleanAndFormatText "" = "" := by
  refine ⟨by decide, by decide, by decide⟩

end PdfPipeline
